import Mathlib

/-!
Verification development for the Pinterest board scraper
(`src/lib/scraper.ts`, `src/app/api/playwright-scrape/route.ts`,
`src/app/api/download/route.ts`).

The TypeScript sources are shallowly embedded: pure string transforms are
translated character by character; the regex scans over the raw markup are
represented by the streams of matches they produce (one list per pattern),
with the per-match string processing (`split`, `includes`, dimension and
hash extraction, occurrence counting, dedup sets, caps) translated
faithfully; the sequential pagination loop is an explicit recursion over
the list of successive feed responses, instrumented with a request/sleep
trace.  JavaScript `Map`/`Set` objects become insertion-ordered
association lists, and JavaScript string falsiness (`""` is falsy) is
modelled explicitly.
-/

/-- JavaScript `\w` character class (ASCII word characters), as used by the
resolution-segment regexes in `scraper.ts` lines 31 and 145. -/
def wordChar (c : Char) : Bool := c.isAlphanum || c == '_'

/-- The literal part of the URL pattern
regex at `scraper.ts` line 31 and `playwright-scrape/route.ts` line 92. -/
def litChars : List Char := "https://i.pinimg.com/".data

/-- After the literal, the regexes match `(\d+x|\w+)\/`.  With the required
trailing slash this is equivalent to: a nonempty maximal run of word
characters followed by a slash.  Returns the run and the text after the
slash. -/
def matchTail (l : List Char) : Option (List Char × List Char) :=
  let run := l.takeWhile wordChar
  match l.dropWhile wordChar with
  | [] => none
  | c :: r => if run.isEmpty then none else if c = '/' then some (run, r) else none

/-- One attempt of the full regex
`https:\/\/i\.pinimg\.com\/(\d+x|\w+)\//` at the head of the text
(`scraper.ts` line 31): literal, then run, then slash.  Returns the text
after the matched slash. -/
def matchAt (l : List Char) : Option (List Char) :=
  if litChars.isPrefixOf l then (matchTail (l.drop 21)).map (fun p => p.2) else none

/-- `String.prototype.replace` with the (non-global) pattern of
`transformImageUrl` (`scraper.ts` lines 31-32): scan for the first
position where the pattern matches, replace the matched text with
the literal, the target size and a slash; leave the rest untouched. -/
def replaceFirstAux (s : List Char) : List Char → List Char
  | [] => []
  | c :: tl =>
    match matchAt (c :: tl) with
    | some rest => litChars ++ s ++ '/' :: rest
    | none => c :: replaceFirstAux s tl

/-- The enumerated size-tag set of `transformImageUrl`
(`scraper.ts` line 29): `'originals' | '736x' | '564x' | '474x' | '236x'`. -/
inductive PinSize where
  | originals
  | s736
  | s564
  | s474
  | s236
deriving DecidableEq

def sizeStr : PinSize → String
  | PinSize.originals => "originals"
  | PinSize.s736 => "736x"
  | PinSize.s564 => "564x"
  | PinSize.s474 => "474x"
  | PinSize.s236 => "236x"

/-- `transformImageUrl` (`scraper.ts` lines 29-33). -/
def transformImageUrl (url : String) (size : PinSize) : String :=
  String.mk (replaceFirstAux (sizeStr size).data url.data)

/-- JavaScript `String.prototype.split` with a one-character separator
(always returns a nonempty array). -/
def splitChar (c : Char) : List Char → List (List Char)
  | [] => [[]]
  | x :: xs =>
    if x = c then [] :: splitChar c xs
    else
      match splitChar c xs with
      | [] => [[x]]
      | g :: gs => (x :: g) :: gs

/-- `imageUrl.split('/').slice(-1)[0]` (`scraper.ts` lines 120, 149). -/
def urlLastSegment (u : String) : List Char := (splitChar '/' u.data).getLastD []

/-- The identity hash of an image URL: final path segment before the
extension, `imagePath.split('.')[0]` (`scraper.ts` lines 119-121 and
149-150). -/
def urlHash (u : String) : String := String.mk ((splitChar '.' (urlLastSegment u)).headD [])

/-- Substring occurrence scan over character lists. -/
def hasInfix (pat : List Char) : List Char → Bool
  | [] => pat.isEmpty
  | c :: tl => pat.isPrefixOf (c :: tl) || hasInfix pat tl

/-- JavaScript `String.prototype.includes`. -/
def strIncludes (s pat : String) : Bool := hasInfix pat.data s.data

/-- JavaScript `String.prototype.endsWith`. -/
def strEndsWith (s pat : String) : Bool := pat.data.reverse.isPrefixOf s.data.reverse

/-- JavaScript `a || b` on strings: the empty string is falsy. -/
def jsOrS (a b : String) : String := if a = "" then b else a

/-- JavaScript string-or-undefined coerced through `|| ''`. -/
def optStr (o : Option String) : String := o.getD ""

/-- The regex `/\/(\d+x|\w+)\//` of the enhanced markup pass
(`scraper.ts` line 145): first position anywhere in the URL with a slash,
a nonempty word run, and a slash; yields the captured run. -/
def findSlashRun : List Char → Option (List Char)
  | [] => none
  | c :: tl =>
    if c = '/' then
      match matchTail tl with
      | some (run, _) => some run
      | none => findSlashRun tl
    else findSlashRun tl

/-- `getDimensionFromUrl` (`playwright-scrape/route.ts` lines 91-94):
first match of the anchored pattern anywhere in the URL; yields the
captured resolution segment. -/
def findLitRun : List Char → Option (List Char)
  | [] => none
  | c :: tl =>
    match (if litChars.isPrefixOf (c :: tl) then (matchTail ((c :: tl).drop 21)).map (fun p => p.1) else none) with
    | some run => some run
    | none => findLitRun tl

def getDimensionFromUrl (u : String) : Option String :=
  (findLitRun u.data).map String.mk

/-- `isValidPinHash` (`playwright-scrape/route.ts` lines 97-98):
`/^[0-9a-f]{16,}$/i`. -/
def isHexChar (c : Char) : Bool :=
  c.isDigit || ('a' ≤ c && c ≤ 'f') || ('A' ≤ c && c ≤ 'F')

def isValidPinHash (hash : String) : Bool :=
  decide (16 ≤ hash.data.length) && hash.data.all isHexChar

/-- Pathname of the WHATWG `URL` constructor, modelled for the http(s)
URL strings this code handles (`playwright-scrape/route.ts` line 79):
`none` when the constructor would throw (no `://`), otherwise the path
after the host, cut at the first query or fragment delimiter, `/` when
there is no path. -/
def afterScheme : List Char → Option (List Char)
  | [] => none
  | ':' :: '/' :: '/' :: rest => some rest
  | _ :: tl => afterScheme tl

def pathnameOf (rest : List Char) : List Char :=
  let afterHost := rest.dropWhile (fun c => !(c == '/') && !(c == '?') && !(c == '#'))
  match afterHost with
  | '/' :: _ => afterHost.takeWhile (fun c => !(c == '?') && !(c == '#'))
  | _ => ['/']

def urlPathname (u : String) : Option String :=
  (afterScheme u.data).map (fun r => String.mk (pathnameOf r))

/-- `getHashFromUrl` (`playwright-scrape/route.ts` lines 77-88): filename
base of the last nonempty pathname segment; on a URL-parse failure the
catch branch splits the raw string instead. -/
def getHashFromUrl (u : String) : Option String :=
  match urlPathname u with
  | some p =>
    let segs := (splitChar '/' p.data).filter (fun g => !g.isEmpty)
    let last := segs.getLastD []
    let base := (splitChar '.' last).headD []
    if base.isEmpty then none else some (String.mk base)
  | none =>
    let parts := splitChar '/' u.data
    let last := parts.getLastD []
    let base := (splitChar '.' last).headD []
    if base.isEmpty then none else some (String.mk base)

/-- `PinterestImage` (`scraper.ts` lines 6-16).  The optional TS fields
are `Option`s; the required URL fields are plain strings. -/
structure PinterestImage where
  id : String
  url : String
  thumbnail : String
  medium : String
  large : String
  original : String
  title : Option String := none
  description : Option String := none
  boardId : Option String := none
deriving DecidableEq

/-- `BoardInfo` (`scraper.ts` lines 18-24). -/
structure BoardInfo where
  id : String
  name : String
  url : String
  pinCount : Nat
  owner : String
deriving DecidableEq

/-- The image-size mapping of a raw pin record (`pin.images` with its
optional `236x`/`474x`/`564x`/`736x`/`orig`/`originals` entries,
`scraper.ts` lines 331-342). -/
structure PinImages where
  i236 : Option String := none
  i474 : Option String := none
  i564 : Option String := none
  i736 : Option String := none
  iOrig : Option String := none
  iOriginals : Option String := none
deriving DecidableEq

/-- A raw pin-shaped record as the recursive walks and the feed decoder
see it: `id`, an optional `images` mapping, the related/story tag checked
at `scraper.ts` lines 357 and 561, and the title/description fields. -/
structure PinNode where
  id : String := ""
  images : Option PinImages := none
  related : Bool := false
  title : Option String := none
  gridTitle : Option String := none
  description : Option String := none
deriving DecidableEq

/-- `extractImageFromPin` (`scraper.ts` lines 328-346). -/
def extractImageFromPin (pin : PinNode) : Option PinterestImage :=
  match pin.images with
  | none => none
  | some im =>
    let thumbnail := optStr im.i236
    if thumbnail = "" then none
    else some {
      id := pin.id
      url := thumbnail
      thumbnail := thumbnail
      medium := jsOrS (optStr im.i474) (jsOrS (optStr im.i564) (transformImageUrl thumbnail PinSize.s474))
      large := jsOrS (optStr im.i736) (jsOrS (optStr im.i564) (transformImageUrl thumbnail PinSize.s736))
      original := jsOrS (optStr im.iOrig) (jsOrS (optStr im.iOriginals) (transformImageUrl thumbnail PinSize.originals))
      title := some (jsOrS (optStr pin.title) (jsOrS (optStr pin.gridTitle) ""))
      description := some (jsOrS (optStr pin.description) "") }

/-- Image object built by `extractAllPinsFromData` for one regex match
(`scraper.ts` lines 627-634). -/
def mkApiImage (pinId imageUrl : String) : PinterestImage :=
  { id := pinId
    url := imageUrl
    thumbnail := imageUrl
    medium := transformImageUrl imageUrl PinSize.s474
    large := transformImageUrl imageUrl PinSize.s736
    original := transformImageUrl imageUrl PinSize.originals }

/-- One pin-pattern scan of `extractAllPinsFromData`
(`scraper.ts` lines 605-641): dedup by id, require an `i.pinimg.com`
URL, push, stop this pattern once 100 images have accumulated.  The id
is registered before the URL check, exactly as in the source. -/
def pinsFromPattern (processed : List String) (images : List PinterestImage) :
    List (String × String) → List String × List PinterestImage
  | [] => (processed, images)
  | (pinId, imageUrl) :: rest =>
    if processed.contains pinId then pinsFromPattern processed images rest
    else
      let processed := processed ++ [pinId]
      if !(strIncludes imageUrl "i.pinimg.com") then pinsFromPattern processed images rest
      else
        let images := images ++ [mkApiImage pinId imageUrl]
        if 100 ≤ images.length then (processed, images)
        else pinsFromPattern processed images rest

/-- `findPinsInStructure` (`scraper.ts` lines 555-582), over the stream of
pin-shaped nodes the depth-bounded walk reaches (children of skipped
related/suggestions/ads subtrees are already absent from the stream):
related/story nodes are skipped without registering their id; otherwise
the id is registered and the extracted image, when any, is pushed. -/
def findPinsInStructureM (processed : List String) (images : List PinterestImage) :
    List PinNode → List String × List PinterestImage
  | [] => (processed, images)
  | node :: rest =>
    if node.id ≠ "" ∧ node.images.isSome ∧ ¬processed.contains node.id then
      if node.related then findPinsInStructureM processed images rest
      else
        match extractImageFromPin node with
        | some img => findPinsInStructureM (processed ++ [node.id]) (images ++ [img]) rest
        | none => findPinsInStructureM (processed ++ [node.id]) images rest
    else findPinsInStructureM processed images rest

/-- The parsed `__PWS_DATA__` blob, represented by what the two
extraction passes of `extractAllPinsFromData` read from it: the match
streams of the two pin regexes over the stringified data (with the id and
URL groups already put in order, lines 611-617), the pin-shaped nodes the
recursive fallback walk reaches, and the board info found by
`extractBoardInfoNew`. -/
structure PwsValid where
  pinMatches : List (List (String × String))
  treePins : List PinNode
  boardInfo : Option BoardInfo
deriving DecidableEq

/-- `extractAllPinsFromData` (`scraper.ts` lines 587-658): regex passes,
then the recursive walk when fewer than 20 images were found. -/
def extractAllPinsFromData (v : PwsValid) : List PinterestImage :=
  let res := v.pinMatches.foldl (fun acc pat => pinsFromPattern acc.1 acc.2 pat) ([], [])
  if res.2.length < 20 then (findPinsInStructureM res.1 res.2 v.treePins).2
  else res.2

/-- The `__PWS_DATA__` script-tag content (`scraper.ts` line 43): either
its content fails `JSON.parse` (line 49 throws) or it parses into
`PwsValid`. -/
inductive PwsBlob where
  | invalid (content : String)
  | valid (v : PwsValid)
deriving DecidableEq

/-- An input markup document, represented by the streams of matches the
regex scans of `extractImagesFromHtml` produce over it: the blob (when
the script-tag regex at line 43 matches), the images the
`__INITIAL_STATE__` fallback of lines 69-92 would contribute (empty in
every run considered here), and the match streams of the seven
`imgPatterns` of lines 97-108. -/
structure HtmlDoc where
  pws : Option PwsBlob := none
  fallbackImages : List PinterestImage := []
  imgMatches : List (List String) := []
deriving DecidableEq

/-- The exception that escapes `extractImagesFromHtml` when `JSON.parse`
fails: the catch block at `scraper.ts` lines 62-65 reads `scriptContent`,
which is declared `const` inside the try block and is out of scope there,
so the logging line itself throws a `ReferenceError`. -/
inductive JsErr where
  | referenceError
deriving DecidableEq

/-- First pass of the enhanced extraction (`scraper.ts` lines 110-127):
count the occurrences of each match's identity hash, in a `Map` keyed by
hash (insertion-ordered association list). -/
def bumpCount : List (String × Nat) → String → List (String × Nat)
  | [], k => [(k, 1)]
  | (a, n) :: t, k => if a = k then (a, n + 1) :: t else (a, n) :: bumpCount t k

def countOccurrences (ms : List String) : List (String × Nat) :=
  ms.foldl (fun acc u => bumpCount acc (urlHash u)) []

/-- Path-segment exclusions of the second pass (`scraper.ts` lines 138-142). -/
def skipPath (u : String) : Bool :=
  strIncludes u "/user/" || strIncludes u "/avatars/" || strIncludes u "/static/" ||
    strIncludes u "/boards/" || strIncludes u "/closeup/"

/-- Resolution-tag exclusions of the second pass (`scraper.ts` lines 158-159). -/
def dimFiltered (dim : String) : Bool :=
  strIncludes dim "30x30" || strIncludes dim "75x75" || strIncludes dim "_RS" ||
    strIncludes dim "200x150"

/-- Image object built by the enhanced pass (`scraper.ts` lines 186-195). -/
def mkEnhancedImage (imageUrl : String) : PinterestImage :=
  let thumbnailUrl := transformImageUrl imageUrl PinSize.s236
  { id := urlHash imageUrl
    url := thumbnailUrl
    thumbnail := thumbnailUrl
    medium := transformImageUrl imageUrl PinSize.s474
    large := transformImageUrl imageUrl PinSize.s736
    original := transformImageUrl imageUrl PinSize.originals }

/-- Second pass of the enhanced extraction over one pattern's match
stream (`scraper.ts` lines 132-204): path exclusions, dimension
extraction, hash dedup, resolution-tag and occurrence filters, the
hash is registered as seen, and the 85-image cap breaks out of this
pattern's scan (after registering the hash, as in the source). -/
def pass2Pattern (counts : List (String × Nat)) (seen : List String)
    (images : List PinterestImage) : List String → List String × List PinterestImage
  | [] => (seen, images)
  | u :: rest =>
    if skipPath u then pass2Pattern counts seen images rest
    else
      match findSlashRun u.data with
      | none => pass2Pattern counts seen images rest
      | some dimChars =>
        let dimension := String.mk dimChars
        let imageHash := urlHash u
        if seen.contains imageHash then pass2Pattern counts seen images rest
        else if dimFiltered dimension then pass2Pattern counts seen images rest
        else if 100 < ((counts.lookup imageHash).getD 0) then pass2Pattern counts seen images rest
        else
          let seen := seen ++ [imageHash]
          if 85 ≤ images.length then (seen, images)
          else pass2Pattern counts seen (images ++ [mkEnhancedImage u]) rest

/-- Both passes of the enhanced extraction (`scraper.ts` lines 94-204),
appending to whatever the blob/fallback phases already produced. -/
def enhancedPass (initial : List PinterestImage) (patterns : List (List String)) :
    List PinterestImage :=
  let counts := countOccurrences patterns.flatten
  (patterns.foldl (fun acc pat => pass2Pattern counts acc.1 acc.2 pat) ([], initial)).2

/-- `extractImagesFromHtml` (`scraper.ts` lines 38-209).  A present but
unparseable blob makes the function itself throw (see `JsErr`); otherwise
the blob images (or, when they are absent, the fallback images) are
extended by the always-run enhanced extraction. -/
def extractImagesFromHtml (doc : HtmlDoc) :
    Except JsErr (List PinterestImage × Option BoardInfo) :=
  match doc.pws with
  | some (PwsBlob.invalid _) => Except.error JsErr.referenceError
  | some (PwsBlob.valid v) =>
    let blobImages := extractAllPinsFromData v
    let base := if blobImages.isEmpty then doc.fallbackImages else blobImages
    Except.ok (enhancedPass base doc.imgMatches, v.boardInfo)
  | none =>
    Except.ok (enhancedPass doc.fallbackImages doc.imgMatches, none)

/-- One feed response of the internal `BoardFeedResource` API, as decoded
by `fetchBoardPins` (`scraper.ts` lines 730-757): the raw result records,
the next continuation token probed from the response (absent when
pagination is exhausted or the request failed), and the board info of the
response. -/
structure FetchPage where
  pins : List PinNode := []
  nextBookmark : Option String := none
  boardInfo : Option BoardInfo := none
deriving DecidableEq

/-- The images one feed response contributes (`scraper.ts` lines 745-753):
records without an id or an images mapping are skipped, the rest go
through `extractImageFromPin`. -/
def fetchPagePins (page : FetchPage) : List PinterestImage :=
  page.pins.filterMap fun p =>
    if p.id = "" then none
    else if p.images.isNone then none
    else extractImageFromPin p

/-- Events observable on the pagination loop of `scrapePinterestBoard`:
one `request` per `fetchBoardPins` call; the loop body contains no delay
call, so no `sleep` event is ever emitted by it. -/
inductive ScrapeEvent where
  | request
  | sleep (ms : Nat)
deriving DecidableEq

def isSleepEv : ScrapeEvent → Bool
  | ScrapeEvent.sleep _ => true
  | ScrapeEvent.request => false

/-- Why the pagination loop of `scrapePinterestBoard` stopped. -/
inductive StopReason where
  | noNewPins
  | noBookmark
  | maxPagesReached
  | expectedCountReached
deriving DecidableEq

/-- The loop state of `scrapePinterestBoard` (`scraper.ts` lines 773-847):
accumulated images, the `seenIds` set, board info, `pagesLoaded`, plus
observation fields recording the last iteration's `newPinsAdded` and
`nextBookmark`, the event trace, and the reason the loop stopped. -/
structure ScrapeState where
  images : List PinterestImage := []
  seenIds : List String := []
  boardInfo : Option BoardInfo := none
  pagesLoaded : Nat := 1
  lastNewAdded : Nat := 0
  lastBookmark : Option String := none
  trace : List ScrapeEvent := []
  stopReason : Option StopReason := none

/-- The merge step of the loop body (`scraper.ts` lines 823-830): add
each pin whose id is not in `seenIds`, counting the additions. -/
def addNewPins (st : ScrapeState) (n : Nat) : List PinterestImage → ScrapeState × Nat
  | [] => (st, n)
  | pin :: rest =>
    if st.seenIds.contains pin.id then addNewPins st n rest
    else
      addNewPins
        { st with images := st.images ++ [pin], seenIds := st.seenIds ++ [pin.id] }
        (n + 1) rest

/-- The pagination loop of `scrapePinterestBoard` (`scraper.ts` lines
811-847) over the list of successive feed responses (an exhausted list
behaves like the error fallback of `fetchBoardPins`, which returns an
empty batch).  Stops on zero new pins, on a missing bookmark, on the
page bound, and — after incrementing `pagesLoaded` — on
`allImages.length >= expectedTotalPins * 0.9` with the hard-coded
`expectedTotalPins = 82` (lines 802-803 and 842-846); `length >= 73.8`
is rendered exactly as `738 <= 10 * length`. -/
def scrapeLoop (maxPages : Nat) : List FetchPage → ScrapeState → ScrapeState
  | [], st =>
    if st.pagesLoaded < maxPages then
      { st with trace := st.trace ++ [ScrapeEvent.request], lastNewAdded := 0,
                lastBookmark := none, stopReason := some StopReason.noNewPins }
    else { st with stopReason := some StopReason.maxPagesReached }
  | page :: rest, st =>
    if st.pagesLoaded < maxPages then
      let binfo : Option BoardInfo :=
        match st.boardInfo with
        | some b => some b
        | none => page.boardInfo
      let st1 := { st with trace := st.trace ++ [ScrapeEvent.request], boardInfo := binfo }
      let step := addNewPins st1 0 (fetchPagePins page)
      let st2 := { step.1 with lastNewAdded := step.2, lastBookmark := page.nextBookmark }
      if step.2 = 0 then { st2 with stopReason := some StopReason.noNewPins }
      else
        match page.nextBookmark with
        | none => { st2 with stopReason := some StopReason.noBookmark }
        | some _ =>
          let st3 : ScrapeState := { st2 with pagesLoaded := st2.pagesLoaded + 1 }
          if 738 ≤ 10 * st3.images.length then
            { st3 with stopReason := some StopReason.expectedCountReached }
          else scrapeLoop maxPages rest st3
    else { st with stopReason := some StopReason.maxPagesReached }

/-- `generateBoardId` (`scraper.ts` lines 515-517), with `Date.now()`
passed in explicitly. -/
def generateBoardId (name : String) (now : Nat) : String :=
  String.mk ((name.data.map Char.toLower).filter (fun c => c.isLower || c.isDigit)) ++
    "_" ++ Nat.repr now

/-- `scrapePinterestBoard` (`scraper.ts` lines 769-862): initial markup
extraction, then — when the board URL parses into user/slug parts — the
feed pagination loop seeded with the ids of the initial images, and the
final board-info fallback. -/
def scrapePinterestBoardM (doc : HtmlDoc) (parts : Option (String × String))
    (feed : List FetchPage) (maxPages : Nat) (now : Nat) : Except JsErr ScrapeState :=
  match extractImagesFromHtml doc with
  | Except.error e => Except.error e
  | Except.ok (initialImages, htmlBoardInfo) =>
    let st0 : ScrapeState :=
      { images := initialImages
        seenIds := initialImages.foldl (fun s i => if s.contains i.id then s else s ++ [i.id]) []
        boardInfo := htmlBoardInfo
        pagesLoaded := 1 }
    match parts with
    | none => Except.ok st0
    | some (username, _slug) =>
      let res := scrapeLoop maxPages feed st0
      let fallbackInfo : BoardInfo :=
        { id := generateBoardId "moodboard" now
          name := "moodboard"
          url := ""
          pinCount := res.images.length
          owner := username }
      if res.boardInfo.isNone ∧ res.images.length ≠ 0 then
        Except.ok { res with boardInfo := some fallbackInfo }
      else Except.ok res

/-- JavaScript `Map.prototype.set` on an insertion-ordered association
list: an existing key keeps its position and gets the new value, a fresh
key is appended. -/
def mapSet (m : List (String × PinterestImage)) (k : String) (v : PinterestImage) :
    List (String × PinterestImage) :=
  if m.any (fun e => e.1 = k) then m.map (fun e => if e.1 = k then (k, v) else e)
  else m ++ [(k, v)]

/-- JavaScript `Map.prototype.has`. -/
def mapHas (m : List (String × PinterestImage)) (k : String) : Bool :=
  m.any (fun e => e.1 = k)

/-- `shouldKeepUrl` (`playwright-scrape/route.ts` lines 48-74): CDN host,
non-pin path and media-format exclusions, the allowed dimension set
including `170x`, and the pin-hash validity check. -/
def shouldKeepUrl (u : String) : Bool :=
  if u = "" then false
  else if !(strIncludes u "i.pinimg.com/") then false
  else if strIncludes u "/user/" || strIncludes u "/avatars/" || strIncludes u "/static/" ||
      strIncludes u "/boards/" || strIncludes u "/closeup/" ||
      strEndsWith u ".gif" || strEndsWith u ".mp4" || strEndsWith u ".webm" then false
  else
    match getDimensionFromUrl u with
    | none => false
    | some dim =>
      if !(["170x", "236x", "474x", "564x", "736x", "originals"].contains dim) then false
      else
        match getHashFromUrl u with
        | none => false
        | some hash => isValidPinHash hash

/-- One DOM-harvested URL of the merge at `playwright-scrape/route.ts`
lines 488-519: `shouldKeepUrl`, the stricter allowed set without `170x`,
normalization to the `236x` thumbnail, and acceptance only when the
derived hash is valid, fresh, and present among the network-confirmed
hashes.  The `seen` set of the source mirrors the map's key set (both are
extended together), so it is rendered by the map itself. -/
def domStep (networkHashes : List String) (m : List (String × PinterestImage))
    (raw : String) : List (String × PinterestImage) :=
  if !(shouldKeepUrl raw) then m
  else
    match getDimensionFromUrl raw with
    | none => m
    | some dim =>
      if !(["236x", "474x", "564x", "736x", "originals"].contains dim) then m
      else
        let thumb := transformImageUrl raw PinSize.s236
        match getHashFromUrl thumb with
        | none => m
        | some id =>
          if !(isValidPinHash id) then m
          else if mapHas m id then m
          else if !(networkHashes.contains id) then m
          else
            mapSet m id
              { id := id
                url := thumb
                thumbnail := thumb
                medium := transformImageUrl raw PinSize.s474
                large := transformImageUrl raw PinSize.s736
                original := transformImageUrl raw PinSize.originals
                title := some ""
                description := some "" }

/-- One HTML-extracted pin of the supplement at `playwright-scrape/route.ts`
lines 525-556: candidate URL and hash, validation against the
network-confirmed hashes or pin ids, keying by `p.id || candidateHash`,
and the normalized object of lines 545-552. -/
def htmlStep (networkHashes networkPinIds : List String)
    (m : List (String × PinterestImage)) (p : PinterestImage) :
    List (String × PinterestImage) :=
  let candidateUrl := jsOrS p.thumbnail (jsOrS p.url (jsOrS p.medium (jsOrS p.large p.original)))
  let candidateHash : Option String :=
    if candidateUrl = "" then none else getHashFromUrl candidateUrl
  let matchesNetworkHash :=
    match candidateHash with
    | some h => networkHashes.contains h
    | none => false
  let matchesNetworkId := if p.id = "" then false else networkPinIds.contains p.id
  if !matchesNetworkHash && !matchesNetworkId then m
  else
    let key? : Option String := if p.id ≠ "" then some p.id else candidateHash
    match key? with
    | none => m
    | some key =>
      if key = "" then m
      else if mapHas m key then m
      else
        mapSet m key
          { p with
            id := key
            thumbnail := jsOrS p.thumbnail
              (if candidateUrl ≠ "" then transformImageUrl candidateUrl PinSize.s236 else p.thumbnail)
            medium := jsOrS p.medium
              (if candidateUrl ≠ "" then transformImageUrl candidateUrl PinSize.s474 else p.medium)
            large := jsOrS p.large
              (if candidateUrl ≠ "" then transformImageUrl candidateUrl PinSize.s736 else p.large)
            original := jsOrS p.original
              (if candidateUrl ≠ "" then transformImageUrl candidateUrl PinSize.originals else p.original) }

/-- The fusion stage of the browser-automation route
(`playwright-scrape/route.ts` lines 472-565): network-captured pins
first, then the DOM harvest validated against the network hashes, then
the HTML supplement — which is skipped whenever both the network hash
set and the network pin-id set are empty.  The final image list is the
map's values in insertion order. -/
def fusePins (networkPins : List PinterestImage) (harvestedUrls : List String)
    (htmlPins : List PinterestImage) : List PinterestImage :=
  let m1 := networkPins.foldl (fun m p => mapSet m p.id p) []
  let networkHashes := networkPins.filterMap (fun p => getHashFromUrl (jsOrS p.thumbnail p.url))
  let networkPinIds := networkPins.filterMap (fun p => if p.id = "" then none else some p.id)
  let m2 := harvestedUrls.foldl (domStep networkHashes) m1
  let m3 :=
    if htmlPins.isEmpty then m2
    else if networkHashes.isEmpty ∧ networkPinIds.isEmpty then m2
    else htmlPins.foldl (htmlStep networkHashes networkPinIds) m2
  m3.map (fun e => e.2)

/-- The upstream fetch of the download proxy as the route observes it:
the fetch promise rejects, or a response arrives with its `ok` flag,
`content-type` header and body bytes. -/
inductive UpstreamResult where
  | throws
  | resp (ok : Bool) (contentType : Option String) (body : List Nat)
deriving DecidableEq

/-- What the download proxy returns: status, forwarded bytes (none for
the JSON error bodies), content type, and the list of upstream URLs it
actually fetched. -/
structure ProxyResponse where
  status : Nat
  body : Option (List Nat) := none
  contentType : Option String := none
  requested : List String := []
deriving DecidableEq

/-- `GET` of `/api/download` (`download/route.ts` lines 3-38): 400 when
the `url` query parameter is missing or empty (the `!imageUrl` falsiness
check), otherwise one fetch of the caller-supplied URL exactly as given;
a rejected fetch or a non-ok status leads to the catch branch and a 500
JSON error with no bytes; an ok response is forwarded with its content
type defaulted to `image/jpeg`. -/
def downloadGET (urlParam : Option String) (fetchUpstream : String → UpstreamResult) :
    ProxyResponse :=
  match urlParam with
  | none => { status := 400 }
  | some u =>
    if u = "" then { status := 400 }
    else
      match fetchUpstream u with
      | UpstreamResult.throws => { status := 500, requested := [u] }
      | UpstreamResult.resp ok ct body =>
        if ok then
          { status := 200, body := some body,
            contentType := some (ct.getD "image/jpeg"), requested := [u] }
        else { status := 500, requested := [u] }

/-- The inter-request delay of the in-page `BoardFeedResource` pagination
loop (`playwright-scrape/route.ts` line 241):
`400 + Math.floor(Math.random() * 300)`, with the floored random draw
(a value in `0..299`) passed in explicitly. -/
def inPageDelayMs (rnd : Nat) : Nat := 400 + rnd

/-- The inter-request delay of the board-section pagination loop
(`playwright-scrape/route.ts` line 322):
`300 + Math.floor(Math.random() * 300)`. -/
def sectionDelayMs (rnd : Nat) : Nat := 300 + rnd

/-! ### Concrete inputs used by the claim theorems -/

/-- Markup whose `__PWS_DATA__` script tag is present but holds content
that `JSON.parse` rejects. -/
def invalidBlobDoc : HtmlDoc := { pws := some (PwsBlob.invalid "not json") }

/-- The markup sample of the exclusion-correctness property: one
avatar-path URL, one content URL whose hash occurs 150 times, one content
URL whose hash occurs 8 times, and one malformed URL (no resolution
segment). -/
def c8doc : HtmlDoc :=
  { imgMatches := [["https://i.pinimg.com/75x75_RS/avatars/aabbccdd.jpg"] ++
      List.replicate 150 "https://i.pinimg.com/736x/aa/bb/aaaa1111bbbb2222cccc.jpg" ++
      List.replicate 8 "https://i.pinimg.com/736x/aa/bb/feedfacefeedface1234.jpg" ++
      ["https://i.pinimg.com/x.jpg"]] }

/-- The single item the exclusion-correctness sample must yield. -/
def c8expected : PinterestImage :=
  { id := "feedfacefeedface1234"
    url := "https://i.pinimg.com/236x/aa/bb/feedfacefeedface1234.jpg"
    thumbnail := "https://i.pinimg.com/236x/aa/bb/feedfacefeedface1234.jpg"
    medium := "https://i.pinimg.com/474x/aa/bb/feedfacefeedface1234.jpg"
    large := "https://i.pinimg.com/736x/aa/bb/feedfacefeedface1234.jpg"
    original := "https://i.pinimg.com/originals/aa/bb/feedfacefeedface1234.jpg" }

/-- Markup whose embedded blob yields one pin with the 16-digit id
`1234567890123456`, while the rendered markup also carries an image URL
whose filename hash is that same string: the blob pass and the heuristic
pass then each emit an item with this id. -/
def c4doc : HtmlDoc :=
  { pws := some (PwsBlob.valid
      { pinMatches := [[("1234567890123456", "https://i.pinimg.com/236x/aa/bb/cc.jpg")]]
        treePins := []
        boardInfo := none })
    imgMatches := [["https://i.pinimg.com/236x/aa/bb/cc.jpg",
                    "https://i.pinimg.com/736x/aa/bb/1234567890123456.jpg"]] }

/-- Markup carrying one well-formed CDN image URL whose filename base
`zz` is short and non-hexadecimal. -/
def c5doc : HtmlDoc := { imgMatches := [["https://i.pinimg.com/736x/aa/bb/zz.jpg"]] }

/-- Markup that the HTML extractor turns into exactly one item, used for
the static-fallback run of the browser-automation route in which no
network traffic was captured. -/
def c2doc : HtmlDoc := { imgMatches := [["https://i.pinimg.com/736x/aa/bb/0123456789abcdef.jpg"]] }

/-- A feed pin record with the given id and a `236x` thumbnail. -/
def mkFeedPin (s : String) : PinNode :=
  { id := s
    images := some { i236 := some ("https://i.pinimg.com/236x/aa/bb/h" ++ s ++ ".jpg") } }

/-- A feed in which the first page returns 74 fresh pins and a
continuation token, and a further page with more fresh pins is still
available. -/
def c1feed : List FetchPage :=
  [ { pins := (List.range 74).map (fun i => mkFeedPin (Nat.repr i)), nextBookmark := some "bk1" },
    { pins := [mkFeedPin "extra"], nextBookmark := some "bk2" } ]

/-- The pagination run on that feed with a page bound of 100, starting
from an empty accumulator. -/
def c1run : ScrapeState := scrapeLoop 100 c1feed { }

/-- A feed of three one-pin pages, the last without a continuation
token: the loop issues three consecutive requests. -/
def c9feed : List FetchPage :=
  [ { pins := [mkFeedPin "a"], nextBookmark := some "b1" },
    { pins := [mkFeedPin "b"], nextBookmark := some "b2" },
    { pins := [mkFeedPin "c"], nextBookmark := none } ]

def c9run : ScrapeState := scrapeLoop 100 c9feed { }

/-- An upstream fetch that always succeeds, for exercising the download
proxy. -/
def okUpstream : String → UpstreamResult := fun _ => UpstreamResult.resp true none []

/-! ### Claim theorems -/

/-- C3.  The claim states that a present but unparseable `__PWS_DATA__`
blob makes `extractImagesFromHtml` return normally with an empty
candidate set from the blob.  The code instead throws: the catch block
at `scraper.ts` lines 62-65 reads `scriptContent`, a `const` declared
inside the try block and out of scope in the catch block, so the
logging line raises a `ReferenceError` that propagates to the caller. -/
theorem c3_invalid_blob_raises :
    extractImagesFromHtml invalidBlobDoc = Except.error JsErr.referenceError := rfl

set_option maxRecDepth 100000 in
/-- C8.  Exclusion correctness of the heuristic extractor: on a markup
sample with one avatar-path URL, one content URL whose identity hash
occurs 150 times, one content URL whose identity hash occurs 8 times and
one malformed URL, `extractImagesFromHtml` yields exactly the one item
whose hash occurs 8 times. -/
theorem c8_exclusion_correctness :
    extractImagesFromHtml c8doc = Except.ok ([c8expected], none) := rfl

/-- C4 counterexample.  A full scrape run (initial markup extraction
followed by the pagination loop) whose final item list carries the id
`1234567890123456` twice — once from the embedded-blob pass and once
from the heuristic markup pass — refuting the claim that the final list
never contains two items with the same `id`. -/
theorem c4_duplicate_ids_counterexample :
    (scrapePinterestBoardM c4doc (some ("user", "board")) [] 10 0).map
        (fun r => r.images.map (fun i => i.id)) =
      Except.ok ["1234567890123456", "cc", "1234567890123456"] ∧
    ¬ (["1234567890123456", "cc", "1234567890123456"] : List String).Nodup :=
  ⟨rfl, by decide⟩

/-- C5 counterexample.  The heuristic extractor emits an item whose
identity hash `zz` is short and non-hexadecimal, refuting the claim that
every item of every extraction path carries a valid hexadecimal hash of
minimum length. -/
theorem c5_nonhex_hash_counterexample :
    (extractImagesFromHtml c5doc).map (fun r => r.1.map (fun i => i.id)) =
      Except.ok ["zz"] ∧ isValidPinHash "zz" = false := ⟨rfl, by decide⟩

/-- C2.  The claim states that with an empty network-confirmed set the
heuristic-extractor output is accepted directly.  In the code the HTML
supplement is skipped whenever both network sets are empty
(`playwright-scrape/route.ts` line 523), so a static-fallback run — no
captured network pins, no DOM harvest — discards the extracted items and
returns an empty final list. -/
theorem c2_empty_network_discards_html_pins :
    (extractImagesFromHtml c2doc).map (fun r => r.1.length) = Except.ok 1 ∧
    (extractImagesFromHtml c2doc).map (fun r => fusePins [] [] r.1) = Except.ok [] :=
  ⟨rfl, rfl⟩

/-- C1.  The claim states the pagination loop stops exactly on (a) zero
new unique items, (b) a missing continuation token, or (c) the page
bound, with no hard-coded expected count.  On a feed whose first page
adds 74 fresh pins with a token present and more pages available, the
loop stops through the hard-coded `expectedTotalPins = 82` early exit
(`allImages.length >= 82 * 0.9`, `scraper.ts` lines 802-803, 842-846)
although none of (a), (b), (c) holds: the last batch added 74 pins, the
last response carried a token, and only 2 of 100 pages were loaded. -/
theorem c1_hardcoded_count_stops_loop :
    c1run.images.length = 74 ∧
    c1run.lastNewAdded = 74 ∧
    c1run.lastBookmark = some "bk1" ∧
    c1run.pagesLoaded = 2 ∧
    c1run.pagesLoaded < 100 ∧
    c1run.stopReason = some StopReason.expectedCountReached ∧
    c1run.trace = [ScrapeEvent.request] := by
  refine ⟨by decide, by decide, by decide, by decide, by decide, by decide, by decide⟩

/-- C9 counterexample.  A pagination run of `scrapePinterestBoard` that
issues three consecutive requests with no sleep event anywhere in its
trace: the loop body (`scraper.ts` lines 811-847) contains no delay
call, refuting the claim that every pair of consecutive requests of the
continuation-token pagination client is separated by a 300-800 ms
randomized delay. -/
theorem c9_scraper_loop_no_delay :
    c9run.trace = [ScrapeEvent.request, ScrapeEvent.request, ScrapeEvent.request] ∧
    c9run.trace.filter isSleepEv = [] := by
  refine ⟨by decide, by decide⟩

/-- C10 counterexample.  With the `url` query parameter present but
empty, the proxy answers 400 and issues no upstream fetch — the
`!imageUrl` falsiness check at `download/route.ts` line 7 — refuting the
claim that 400 is returned exactly when the parameter is absent and that
a present parameter is always fetched. -/
theorem c10_empty_url_param_counterexample :
    (downloadGET (some "") okUpstream).status = 400 ∧
    (downloadGET (some "") okUpstream).requested = [] ∧
    some "" ≠ (none : Option String) := by
  refine ⟨by decide, by decide, by decide⟩

/-! ### Lemmas about the first-match replacement of `transformImageUrl` -/

theorem litChars_len : litChars.length = 21 := rfl

theorem ipo_append_self (l x : List Char) : l.isPrefixOf (l ++ x) = true := by
  induction l with
  | nil => simp
  | cons a as ih => simp [List.isPrefixOf, ih]

theorem ipo_decomp (p : List Char) : ∀ l : List Char, p.isPrefixOf l = true →
    l = p ++ l.drop p.length := by
  induction p with
  | nil => intro l _; rfl
  | cons a as ih =>
    intro l h
    cases l with
    | nil => simp [List.isPrefixOf] at h
    | cons b bs =>
      simp only [List.isPrefixOf, Bool.and_eq_true, beq_iff_eq] at h
      obtain ⟨rfl, h2⟩ := h
      simpa using ih bs h2

theorem ipo_window (p : List Char) : ∀ (w z z' : List Char), p.length ≤ w.length →
    p.isPrefixOf (w ++ z) = p.isPrefixOf (w ++ z') := by
  induction p with
  | nil => intro w z z' _; simp
  | cons a as ih =>
    intro w z z' h
    cases w with
    | nil => simp at h
    | cons b bs =>
      simp only [List.cons_append, List.isPrefixOf, List.append_eq]
      rw [ih bs z z' (by simpa using h)]

theorem drop_append_len_le (w z : List Char) : ∀ n : Nat, n ≤ w.length →
    (w ++ z).drop n = w.drop n ++ z := by
  induction w with
  | nil =>
    intro n h
    have hn : n = 0 := Nat.le_zero.mp (by simpa using h)
    subst hn; rfl
  | cons a as ih =>
    intro n h
    cases n with
    | zero => rfl
    | succ m => simpa using ih m (by simpa using h)

theorem drop_append_len_ge (w z : List Char) : ∀ n : Nat, w.length ≤ n →
    (w ++ z).drop n = z.drop (n - w.length) := by
  induction w with
  | nil => intro n _; simp
  | cons a as ih =>
    intro n h
    cases n with
    | zero => simp at h
    | succ m =>
      have := ih m (by simpa using h)
      simpa [Nat.succ_sub_succ] using this

theorem tw_all_append (l : List Char) (b : Char) (r : List Char)
    (hl : ∀ c ∈ l, wordChar c = true) (hb : wordChar b = false) :
    (l ++ b :: r).takeWhile wordChar = l := by
  induction l with
  | nil => simp [List.takeWhile_cons, hb]
  | cons a as ih =>
    have ha : wordChar a = true := hl a (by simp)
    simp [List.takeWhile_cons, ha, ih (fun c hc => hl c (by simp [hc]))]

theorem dw_all_append (l : List Char) (b : Char) (r : List Char)
    (hl : ∀ c ∈ l, wordChar c = true) (hb : wordChar b = false) :
    (l ++ b :: r).dropWhile wordChar = b :: r := by
  induction l with
  | nil => simp [List.dropWhile_cons, hb]
  | cons a as ih =>
    have ha : wordChar a = true := hl a (by simp)
    simp [List.dropWhile_cons, ha, ih (fun c hc => hl c (by simp [hc]))]

theorem dw_ne_nil (l : List Char) (h : ∃ c ∈ l, wordChar c = false) :
    l.dropWhile wordChar ≠ [] := by
  induction l with
  | nil => simp at h
  | cons a as ih =>
    cases ha : wordChar a with
    | false => simp [List.dropWhile_cons, ha]
    | true =>
      simp only [List.dropWhile_cons, ha, if_true]
      apply ih
      obtain ⟨c, hc, hcw⟩ := h
      rcases List.mem_cons.mp hc with rfl | hc'
      · rw [ha] at hcw; cases hcw
      · exact ⟨c, hc', hcw⟩

theorem dw_append_of_ne_nil (l z : List Char) (h : l.dropWhile wordChar ≠ []) :
    (l ++ z).dropWhile wordChar = l.dropWhile wordChar ++ z := by
  induction l with
  | nil => simp at h
  | cons a as ih =>
    cases ha : wordChar a with
    | false => simp [List.dropWhile_cons, ha]
    | true =>
      simp only [List.cons_append, List.dropWhile_cons, ha, if_true] at h ⊢
      exact ih h

theorem tw_append_of_ne_nil (l z : List Char) (h : l.dropWhile wordChar ≠ []) :
    (l ++ z).takeWhile wordChar = l.takeWhile wordChar := by
  induction l with
  | nil => simp at h
  | cons a as ih =>
    cases ha : wordChar a with
    | false => simp [List.takeWhile_cons, List.dropWhile_cons, ha]
    | true =>
      simp only [List.dropWhile_cons, ha, if_true] at h
      simp [List.cons_append, List.takeWhile_cons, ha, ih h]

theorem matchTail_isNone_indep (w z z' : List Char) (h : ∃ c ∈ w, wordChar c = false) :
    (matchTail (w ++ z)).isNone = (matchTail (w ++ z')).isNone := by
  have hdw : w.dropWhile wordChar ≠ [] := dw_ne_nil w h
  obtain ⟨d, ds, hd⟩ : ∃ d ds, w.dropWhile wordChar = d :: ds := by
    cases hw : w.dropWhile wordChar with
    | nil => exact absurd hw hdw
    | cons d ds => exact ⟨d, ds, rfl⟩
  have h1 : (w ++ z).dropWhile wordChar = d :: (ds ++ z) := by
    rw [dw_append_of_ne_nil w z hdw, hd]; rfl
  have h1' : (w ++ z').dropWhile wordChar = d :: (ds ++ z') := by
    rw [dw_append_of_ne_nil w z' hdw, hd]; rfl
  have h2 : (w ++ z).takeWhile wordChar = w.takeWhile wordChar := tw_append_of_ne_nil w z hdw
  have h2' : (w ++ z').takeWhile wordChar = w.takeWhile wordChar := tw_append_of_ne_nil w z' hdw
  unfold matchTail
  rw [h1, h1', h2, h2']
  by_cases he : (w.takeWhile wordChar).isEmpty
  · simp [he]
  · by_cases hdc : d = '/'
    · simp [he, hdc]
    · simp [he, hdc]

theorem lit_drop_nonword : ∀ k : Nat, k < 21 → 1 ≤ k →
    ∃ c ∈ litChars.drop k, wordChar c = false := by decide

theorem nw_after_lit (m : List Char) (hm : m ≠ []) :
    ∃ c ∈ (m ++ litChars).drop 21, wordChar c = false := by
  rcases Nat.lt_or_ge m.length 21 with hlt | hge
  · have hdrop : (m ++ litChars).drop 21 = litChars.drop (21 - m.length) :=
      drop_append_len_ge m litChars 21 (Nat.le_of_lt hlt)
    rw [hdrop]
    refine lit_drop_nonword (21 - m.length) ?_ ?_
    · have h1 : 1 ≤ m.length := by
        cases m with
        | nil => exact absurd rfl hm
        | cons a as => simp
      omega
    · omega
  · have hdrop : (m ++ litChars).drop 21 = m.drop 21 ++ litChars :=
      drop_append_len_le m litChars 21 hge
    rw [hdrop]
    refine ⟨':', ?_, by decide⟩
    exact List.mem_append_right _ (by decide)

theorem matchAt_none_indep (m z z' : List Char) (hm : m ≠ [])
    (h : matchAt ((m ++ litChars) ++ z) = none) : matchAt ((m ++ litChars) ++ z') = none := by
  have hlen : 21 ≤ (m ++ litChars).length := by
    rw [List.length_append, litChars_len]; omega
  have hpre : litChars.isPrefixOf ((m ++ litChars) ++ z) =
      litChars.isPrefixOf ((m ++ litChars) ++ z') := by
    rw [ipo_window litChars (m ++ litChars) z z' (by rw [litChars_len]; exact hlen)]
  unfold matchAt at h ⊢
  cases hp : litChars.isPrefixOf ((m ++ litChars) ++ z') with
  | false => simp [hp]
  | true =>
    rw [hp] at hpre
    rw [hpre] at h
    simp only [if_true] at h ⊢
    have hdz : ((m ++ litChars) ++ z).drop 21 = (m ++ litChars).drop 21 ++ z :=
      drop_append_len_le (m ++ litChars) z 21 hlen
    have hdz' : ((m ++ litChars) ++ z').drop 21 = (m ++ litChars).drop 21 ++ z' :=
      drop_append_len_le (m ++ litChars) z' 21 hlen
    rw [hdz] at h
    rw [hdz']
    have hnw := nw_after_lit m hm
    have hiso := matchTail_isNone_indep ((m ++ litChars).drop 21) z z' hnw
    cases ht : matchTail ((m ++ litChars).drop 21 ++ z') with
    | none => rfl
    | some p =>
      rw [ht] at hiso
      cases ht2 : matchTail ((m ++ litChars).drop 21 ++ z) with
      | none => rw [ht2] at hiso; simp at hiso
      | some q => rw [ht2] at h; simp at h

theorem matchAt_some_structure (l : List Char) (rest : List Char)
    (h : matchAt l = some rest) :
    litChars.isPrefixOf l = true ∧ l = litChars ++ l.drop 21 := by
  unfold matchAt at h
  cases hp : litChars.isPrefixOf l with
  | false => rw [hp] at h; simp at h
  | true =>
    refine ⟨rfl, ?_⟩
    have := ipo_decomp litChars l hp
    rwa [litChars_len] at this

theorem replaceFirst_of_matchAt (s l rest : List Char) (h : matchAt l = some rest) :
    replaceFirstAux s l = litChars ++ s ++ '/' :: rest := by
  cases l with
  | nil =>
    have : matchAt ([] : List Char) = none := by decide
    rw [this] at h; cases h
  | cons c tl => simp [replaceFirstAux, h]

theorem replaceFirst_shape (s : List Char) (l : List Char) :
    replaceFirstAux s l = l ∨
    ∃ a x y, l = (a ++ litChars) ++ x ∧ replaceFirstAux s l = (a ++ litChars) ++ y := by
  induction l with
  | nil => left; rfl
  | cons c tl ih =>
    cases hm : matchAt (c :: tl) with
    | some rest =>
      right
      obtain ⟨_, hdec⟩ := matchAt_some_structure (c :: tl) rest hm
      refine ⟨[], (c :: tl).drop 21, s ++ '/' :: rest, by simpa using hdec, ?_⟩
      rw [replaceFirst_of_matchAt s (c :: tl) rest hm]
      simp
    | none =>
      have hstep : replaceFirstAux s (c :: tl) = c :: replaceFirstAux s tl := by
        simp [replaceFirstAux, hm]
      rcases ih with he | ⟨a, x, y, h1, h2⟩
      · left; rw [hstep, he]
      · right
        refine ⟨c :: a, x, y, ?_, ?_⟩
        · rw [h1]; rfl
        · rw [hstep, h2]; rfl

theorem matchAt_none_stable (s : List Char) (c : Char) (tl : List Char)
    (h : matchAt (c :: tl) = none) :
    matchAt (c :: replaceFirstAux s tl) = none := by
  rcases replaceFirst_shape s tl with he | ⟨a, x, y, h1, h2⟩
  · rw [he]; exact h
  · rw [h2]
    have hshape : c :: (a ++ litChars) ++ x = c :: ((a ++ litChars) ++ x) := rfl
    have h' : matchAt ((c :: (a ++ litChars)) ++ x) = none := by
      have : (c :: (a ++ litChars)) ++ x = c :: ((a ++ litChars) ++ x) := rfl
      rw [this, ← h1]; exact h
    have hcons : c :: (a ++ litChars) = (c :: a) ++ litChars := rfl
    rw [hcons] at h'
    have := matchAt_none_indep (c :: a) x y (by simp) h'
    have hback : ((c :: a) ++ litChars) ++ y = c :: ((a ++ litChars) ++ y) := rfl
    rwa [hback] at this

theorem sizeStr_chars (s : PinSize) :
    (sizeStr s).data ≠ [] ∧ ∀ c ∈ (sizeStr s).data, wordChar c = true := by
  cases s <;> exact ⟨by decide, by decide⟩

theorem matchAt_lit (sd : List Char) (hne : sd ≠ [])
    (hall : ∀ c ∈ sd, wordChar c = true) (r : List Char) :
    matchAt ((litChars ++ sd) ++ '/' :: r) = some r := by
  have hassoc : (litChars ++ sd) ++ '/' :: r = litChars ++ (sd ++ '/' :: r) := by
    rw [List.append_assoc]
  rw [hassoc]
  unfold matchAt
  rw [ipo_append_self litChars (sd ++ '/' :: r)]
  simp only [if_true]
  have hdrop : (litChars ++ (sd ++ '/' :: r)).drop 21 = sd ++ '/' :: r := by
    have := drop_append_len_le litChars (sd ++ '/' :: r) 21 (by rw [litChars_len])
    rw [this]
    rfl
  rw [hdrop]
  unfold matchTail
  rw [tw_all_append sd '/' r hall (by decide), dw_all_append sd '/' r hall (by decide)]
  have hne' : sd.isEmpty = false := by
    cases sd with
    | nil => exact absurd rfl hne
    | cons a as => rfl
  simp [hne']

theorem replaceFirst_idem (s : PinSize) (l : List Char) :
    replaceFirstAux (sizeStr s).data (replaceFirstAux (sizeStr s).data l) =
      replaceFirstAux (sizeStr s).data l := by
  obtain ⟨hne, hall⟩ := sizeStr_chars s
  induction l with
  | nil => rfl
  | cons c tl ih =>
    cases hm : matchAt (c :: tl) with
    | some rest =>
      rw [replaceFirst_of_matchAt _ _ _ hm]
      have hlit := matchAt_lit (sizeStr s).data hne hall rest
      have := replaceFirst_of_matchAt (sizeStr s).data
        ((litChars ++ (sizeStr s).data) ++ '/' :: rest) rest hlit
      simpa [List.append_assoc] using this
    | none =>
      have hstep : replaceFirstAux (sizeStr s).data (c :: tl) =
          c :: replaceFirstAux (sizeStr s).data tl := by
        simp [replaceFirstAux, hm]
      rw [hstep]
      have hnone := matchAt_none_stable (sizeStr s).data c tl hm
      have hstep2 : replaceFirstAux (sizeStr s).data
          (c :: replaceFirstAux (sizeStr s).data tl) =
          c :: replaceFirstAux (sizeStr s).data (replaceFirstAux (sizeStr s).data tl) := by
        simp [replaceFirstAux, hnone]
      rw [hstep2, ih]

/-- C6.  Idempotence of the size-substitution function: applying
`transformImageUrl` twice with the same target size yields the same URL
as applying it once, for every URL string and every size tag of the
enumerated set. -/
theorem c6_transform_idempotent (u : String) (s : PinSize) :
    transformImageUrl (transformImageUrl u s) s = transformImageUrl u s := by
  unfold transformImageUrl
  exact congrArg String.mk (replaceFirst_idem s u.data)

/-! ### Lemmas about `splitChar` and the identity hash -/

theorem splitChar_ne_nil (c : Char) (l : List Char) : splitChar c l ≠ [] := by
  induction l with
  | nil => simp [splitChar]
  | cons x xs ih =>
    by_cases hx : x = c
    · simp [splitChar, hx]
    · simp only [splitChar, hx, if_false]
      cases hs : splitChar c xs with
      | nil => simp
      | cons g gs => simp

theorem splitChar_cons_self (c : Char) (y : List Char) :
    splitChar c (c :: y) = [] :: splitChar c y := by
  simp [splitChar]

theorem splitChar_cons_ne (c h : Char) (y : List Char) (hc : ¬h = c) :
    splitChar c (h :: y) =
      match splitChar c y with
      | [] => [[h]]
      | g :: gs => (h :: g) :: gs := by
  simp [splitChar, hc]

theorem splitChar_sep_two (c : Char) (x y : List Char) :
    2 ≤ (splitChar c (x ++ c :: y)).length := by
  induction x with
  | nil =>
    show 2 ≤ (splitChar c (c :: y)).length
    rw [splitChar_cons_self]
    have := List.length_pos.mpr (splitChar_ne_nil c y)
    simp only [List.length_cons]
    omega
  | cons h t ih =>
    show 2 ≤ (splitChar c (h :: (t ++ c :: y))).length
    by_cases hc : h = c
    · rw [hc, splitChar_cons_self]
      have := List.length_pos.mpr (splitChar_ne_nil c (t ++ c :: y))
      simp only [List.length_cons]
      omega
    · rw [splitChar_cons_ne c h _ hc]
      cases hs : splitChar c (t ++ c :: y) with
      | nil => exact absurd hs (splitChar_ne_nil c _)
      | cons g gs =>
        rw [hs] at ih
        simp only [List.length_cons] at ih ⊢
        omega

theorem getLastD_irrel (l : List (List Char)) (h : l ≠ []) (d1 d2 : List Char) :
    l.getLastD d1 = l.getLastD d2 := by
  cases l with
  | nil => exact absurd rfl h
  | cons x xs => rw [List.getLastD_cons, List.getLastD_cons]

theorem splitChar_last_sep (c : Char) (x y : List Char) :
    (splitChar c (x ++ c :: y)).getLastD [] = (splitChar c y).getLastD [] := by
  induction x with
  | nil =>
    show (splitChar c (c :: y)).getLastD [] = _
    rw [splitChar_cons_self, List.getLastD_cons]
  | cons h t ih =>
    show (splitChar c (h :: (t ++ c :: y))).getLastD [] = _
    by_cases hc : h = c
    · rw [hc, splitChar_cons_self, List.getLastD_cons]
      exact ih
    · rw [splitChar_cons_ne c h _ hc]
      cases hs : splitChar c (t ++ c :: y) with
      | nil => exact absurd hs (splitChar_ne_nil c _)
      | cons g gs =>
        cases gs with
        | nil =>
          have h2 := splitChar_sep_two c t y
          rw [hs] at h2; simp at h2
        | cons g2 gs2 =>
          rw [hs] at ih
          rw [List.getLastD_cons] at ih ⊢
          rw [List.getLastD_cons] at ih ⊢
          exact ih

/-- C7.  Identity determinism: for any two URLs that differ only in the
resolution segment of the path — `https://i.pinimg.com/<seg1>/<rest>`
versus `https://i.pinimg.com/<seg2>/<rest>` — the derived identity hash
(final path segment before the extension, as computed by the markup
extractor) is the same. -/
theorem c7_hash_resolution_invariant (seg1 seg2 rest : List Char) :
    urlHash (String.mk ((litChars ++ seg1) ++ '/' :: rest)) =
      urlHash (String.mk ((litChars ++ seg2) ++ '/' :: rest)) := by
  unfold urlHash urlLastSegment
  rw [show (String.mk ((litChars ++ seg1) ++ '/' :: rest)).data =
        (litChars ++ seg1) ++ '/' :: rest from rfl,
      show (String.mk ((litChars ++ seg2) ++ '/' :: rest)).data =
        (litChars ++ seg2) ++ '/' :: rest from rfl,
      splitChar_last_sep '/' (litChars ++ seg1) rest,
      splitChar_last_sep '/' (litChars ++ seg2) rest]

/-- C5 amended.  The hash-validity check is enforced on the
browser-automation DOM-harvest path: every URL that `shouldKeepUrl`
accepts has a derived hash satisfying `isValidPinHash` (hexadecimal, at
least 16 characters).  The heuristic markup extractor does not enforce
this (see its counterexample). -/
theorem c5_domkeep_valid_hash (u : String) (hk : shouldKeepUrl u = true) :
    ∃ h, getHashFromUrl u = some h ∧ isValidPinHash h = true := by
  unfold shouldKeepUrl at hk
  split at hk
  · cases hk
  · split at hk
    · cases hk
    · split at hk
      · cases hk
      · split at hk
        · cases hk
        · split at hk
          · cases hk
          · split at hk
            · cases hk
            · rename_i hash heq
              exact ⟨hash, heq, hk⟩

/-- Closed witness for the C5 amended theorem at a concrete harvested
URL. -/
theorem c5_domkeep_valid_hash_witness :
    shouldKeepUrl "https://i.pinimg.com/736x/aa/bb/0123456789abcdef.jpg" = true ∧
    ∃ h, getHashFromUrl "https://i.pinimg.com/736x/aa/bb/0123456789abcdef.jpg" = some h ∧
      isValidPinHash h = true :=
  ⟨by decide, c5_domkeep_valid_hash "https://i.pinimg.com/736x/aa/bb/0123456789abcdef.jpg" (by decide)⟩

/-! ### Invariants of the fusion map and the pagination loop -/

/-- Invariant of the `imagesMap` association list: distinct keys, and
every stored image carries its key as id. -/
def mapInv (m : List (String × PinterestImage)) : Prop :=
  (m.map Prod.fst).Nodup ∧ ∀ e ∈ m, e.2.id = e.1

theorem mapInv_nil : mapInv [] := ⟨List.nodup_nil, by simp⟩

theorem mapSet_inv (m : List (String × PinterestImage)) (k : String) (v : PinterestImage)
    (hm : mapInv m) (hv : v.id = k) : mapInv (mapSet m k v) := by
  unfold mapSet
  by_cases h : m.any (fun e => e.1 = k)
  · rw [if_pos h]
    constructor
    · have hkeys : (m.map (fun e => if e.1 = k then (k, v) else e)).map Prod.fst =
          m.map Prod.fst := by
        rw [List.map_map]
        apply List.map_congr_left
        intro e _
        by_cases hek : e.1 = k
        · simp [hek]
        · simp [hek]
      rw [hkeys]
      exact hm.1
    · intro e he
      obtain ⟨e0, he0, heq⟩ := List.mem_map.mp he
      by_cases hek : e0.1 = k
      · rw [if_pos hek] at heq
        rw [← heq]
        exact hv
      · rw [if_neg hek] at heq
        rw [← heq]
        exact hm.2 e0 he0
  · rw [if_neg h]
    have hk : k ∉ m.map Prod.fst := by
      intro hmem
      obtain ⟨e, he, heq⟩ := List.mem_map.mp hmem
      exact h (List.any_eq_true.mpr ⟨e, he, by simp [heq]⟩)
    constructor
    · rw [List.map_append]
      simp only [List.map_cons, List.map_nil]
      rw [List.nodup_append]
      exact ⟨hm.1, List.nodup_singleton k, by simpa using hk⟩
    · intro e he
      rcases List.mem_append.mp he with h1 | h2
      · exact hm.2 e h1
      · simp at h2
        rw [h2]
        exact hv

theorem domStep_inv (hs : List String) (m : List (String × PinterestImage)) (raw : String)
    (hm : mapInv m) : mapInv (domStep hs m raw) := by
  unfold domStep
  dsimp only
  repeat' split
  all_goals first
  | exact hm
  | exact mapSet_inv _ _ _ hm rfl

theorem htmlStep_inv (hs ids : List String) (m : List (String × PinterestImage))
    (p : PinterestImage) (hm : mapInv m) : mapInv (htmlStep hs ids m p) := by
  unfold htmlStep
  dsimp only
  repeat' split
  all_goals first
  | exact hm
  | exact mapSet_inv _ _ _ hm rfl

theorem foldl_mapInv {α : Type} (f : List (String × PinterestImage) → α → List (String × PinterestImage))
    (hf : ∀ m a, mapInv m → mapInv (f m a)) :
    ∀ (l : List α) (m : List (String × PinterestImage)), mapInv m → mapInv (l.foldl f m) := by
  intro l
  induction l with
  | nil => intro m hm; exact hm
  | cons a as ih => intro m hm; exact ih _ (hf m a hm)

theorem mapInv_values_nodup (m : List (String × PinterestImage)) (hm : mapInv m) :
    ((m.map (fun e => e.2)).map (fun i => i.id)).Nodup := by
  rw [List.map_map]
  have heq : m.map ((fun i : PinterestImage => i.id) ∘ (fun e : String × PinterestImage => e.2)) =
      m.map Prod.fst :=
    List.map_congr_left (fun e he => hm.2 e he)
  rw [heq]
  exact hm.1

theorem fusePins_nodup (nps : List PinterestImage) (hus : List String)
    (hps : List PinterestImage) : ((fusePins nps hus hps).map (fun i => i.id)).Nodup := by
  unfold fusePins
  have h1 : mapInv (nps.foldl (fun m p => mapSet m p.id p) []) :=
    foldl_mapInv _ (fun m p hm => mapSet_inv m p.id p hm rfl) nps [] mapInv_nil
  have h2 : mapInv (hus.foldl
      (domStep (nps.filterMap (fun p => getHashFromUrl (jsOrS p.thumbnail p.url))))
      (nps.foldl (fun m p => mapSet m p.id p) [])) :=
    foldl_mapInv _ (fun m r hm => domStep_inv _ m r hm) hus _ h1
  apply mapInv_values_nodup
  split
  · exact h2
  · split
    · exact h2
    · exact foldl_mapInv _ (fun m p hm => htmlStep_inv _ _ m p hm) hps _ h2

/-- Invariant of the pagination-loop state: the accumulated ids are
pairwise distinct and all registered in the `seenIds` set. -/
def loopInv (st : ScrapeState) : Prop :=
  (st.images.map (fun i => i.id)).Nodup ∧ ∀ i ∈ st.images, i.id ∈ st.seenIds

theorem addNewPins_inv (pins : List PinterestImage) :
    ∀ (st : ScrapeState) (n : Nat), loopInv st → loopInv (addNewPins st n pins).1 := by
  induction pins with
  | nil => intro st n h; exact h
  | cons p rest ih =>
    intro st n h
    unfold addNewPins
    by_cases hc : st.seenIds.contains p.id
    · rw [if_pos hc]
      exact ih st n h
    · rw [if_neg hc]
      apply ih
      have hmem : p.id ∉ st.seenIds := by
        intro hmem
        exact hc (List.elem_iff.mpr hmem)
      constructor
      · show ((st.images ++ [p]).map (fun i => i.id)).Nodup
        rw [List.map_append]
        simp only [List.map_cons, List.map_nil]
        rw [List.nodup_append]
        refine ⟨h.1, List.nodup_singleton _, ?_⟩
        intro a ha
        simp only [List.mem_singleton]
        intro hap
        obtain ⟨i, hi, hieq⟩ := List.mem_map.mp ha
        rw [hap] at hieq
        exact hmem (hieq ▸ h.2 i hi)
      · intro i hi
        rcases List.mem_append.mp hi with h1 | h2
        · exact List.mem_append_left _ (h.2 i h1)
        · simp only [List.mem_singleton] at h2
          rw [h2]
          exact List.mem_append_right _ (by simp)

theorem scrapeLoop_inv (maxPages : Nat) (feed : List FetchPage) :
    ∀ st : ScrapeState, loopInv st → loopInv (scrapeLoop maxPages feed st) := by
  induction feed with
  | nil =>
    intro st h
    unfold scrapeLoop
    split
    · exact h
    · exact h
  | cons page rest ih =>
    intro st h
    unfold scrapeLoop
    dsimp only
    split
    · split
      · exact addNewPins_inv _ _ _ h
      · split
        · exact addNewPins_inv _ _ _ h
        · split
          · exact addNewPins_inv _ _ _ h
          · exact ih _ (addNewPins_inv _ _ _ h)
    · exact h

/-- C4 amended.  The dedup invariant holds for the browser-automation
fusion stage (its final list never carries an id twice, for all inputs)
and is preserved by the feed-pagination loop (starting from an
accumulator with pairwise-distinct ids all registered in the seen set,
the final list still has pairwise-distinct ids).  It fails only for the
initial markup extraction, where a heuristic-pass filename hash can
collide with an embedded-blob pin id (see the counterexample). -/
theorem c4_dedup_amended :
    (∀ (networkPins : List PinterestImage) (harvestedUrls : List String)
        (htmlPins : List PinterestImage),
        ((fusePins networkPins harvestedUrls htmlPins).map (fun i => i.id)).Nodup) ∧
    (∀ (maxPages : Nat) (feed : List FetchPage) (st : ScrapeState),
        (st.images.map (fun i => i.id)).Nodup →
        (∀ i ∈ st.images, i.id ∈ st.seenIds) →
        ((scrapeLoop maxPages feed st).images.map (fun i => i.id)).Nodup) :=
  ⟨fusePins_nodup,
   fun maxPages feed st h1 h2 => (scrapeLoop_inv maxPages feed st ⟨h1, h2⟩).1⟩

/-- A one-image accumulator for exercising the loop-preservation half of
the amended dedup theorem. -/
def w4pin : PinterestImage :=
  { id := "777000111222333444"
    url := "https://i.pinimg.com/236x/aa/bb/w4.jpg"
    thumbnail := "https://i.pinimg.com/236x/aa/bb/w4.jpg"
    medium := "https://i.pinimg.com/474x/aa/bb/w4.jpg"
    large := "https://i.pinimg.com/736x/aa/bb/w4.jpg"
    original := "https://i.pinimg.com/originals/aa/bb/w4.jpg" }

def w4state : ScrapeState := { images := [w4pin], seenIds := [w4pin.id] }

/-- Closed witness for the C4 amended theorem at concrete inputs. -/
theorem c4_dedup_amended_witness :
    ((fusePins [w4pin] [] []).map (fun i => i.id)).Nodup ∧
    ((scrapeLoop 10 [{ pins := [mkFeedPin "w4b"], nextBookmark := none }] w4state).images.map
        (fun i => i.id)).Nodup :=
  ⟨c4_dedup_amended.1 [w4pin] [] [],
   c4_dedup_amended.2 10 [{ pins := [mkFeedPin "w4b"], nextBookmark := none }] w4state
     (by decide) (by decide)⟩

/-- C9 amended.  The in-browser pagination loops do separate consecutive
requests by randomized delays inside the 300-800 ms range
(`400 + floor(rand*300)` for the board feed, `300 + floor(rand*300)` for
the section feeds); the server-side `scrapePinterestBoard` loop issues
its consecutive requests with no delay at all — its trace never gains a
sleep event. -/
theorem c9_delays_amended :
    (∀ rnd : Nat, rnd ≤ 299 →
        300 ≤ inPageDelayMs rnd ∧ inPageDelayMs rnd ≤ 800 ∧
        300 ≤ sectionDelayMs rnd ∧ sectionDelayMs rnd ≤ 800) ∧
    (∀ (maxPages : Nat) (feed : List FetchPage) (st : ScrapeState),
        (scrapeLoop maxPages feed st).trace.filter isSleepEv = st.trace.filter isSleepEv) := by
  constructor
  · intro rnd h
    unfold inPageDelayMs sectionDelayMs
    omega
  · intro maxPages feed
    have haddtr : ∀ (pins : List PinterestImage) (st : ScrapeState) (n : Nat),
        (addNewPins st n pins).1.trace = st.trace := by
      intro pins
      induction pins with
      | nil => intro st n; rfl
      | cons p rest ih =>
        intro st n
        unfold addNewPins
        by_cases hc : st.seenIds.contains p.id
        · rw [if_pos hc]; exact ih st n
        · rw [if_neg hc]; exact ih _ _
    induction feed with
    | nil =>
      intro st
      unfold scrapeLoop
      split
      · simp [List.filter_append, isSleepEv]
      · rfl
    | cons page rest ih =>
      intro st
      unfold scrapeLoop
      dsimp only
      split
      · have htr : ∀ n, (addNewPins
            { st with trace := st.trace ++ [ScrapeEvent.request],
                      boardInfo := match st.boardInfo with
                        | some b => some b
                        | none => page.boardInfo } n (fetchPagePins page)).1.trace =
            st.trace ++ [ScrapeEvent.request] := fun n => haddtr _ _ n
        split
        · show ((addNewPins _ 0 (fetchPagePins page)).1.trace.filter isSleepEv) = _
          rw [htr 0]
          simp [List.filter_append, isSleepEv]
        · split
          · show ((addNewPins _ 0 (fetchPagePins page)).1.trace.filter isSleepEv) = _
            rw [htr 0]
            simp [List.filter_append, isSleepEv]
          · split
            · show ((addNewPins _ 0 (fetchPagePins page)).1.trace.filter isSleepEv) = _
              rw [htr 0]
              simp [List.filter_append, isSleepEv]
            · rw [ih _]
              show ((addNewPins _ 0 (fetchPagePins page)).1.trace.filter isSleepEv) = _
              rw [htr 0]
              simp [List.filter_append, isSleepEv]
      · rfl

/-- Closed witness for the C9 amended theorem: the delay bounds at a
concrete random draw, and the sleep-free trace on a concrete run. -/
theorem c9_delays_amended_witness :
    (300 ≤ inPageDelayMs 0 ∧ inPageDelayMs 0 ≤ 800 ∧
     300 ≤ sectionDelayMs 299 ∧ sectionDelayMs 299 ≤ 800) ∧
    (scrapeLoop 5 [] { }).trace.filter isSleepEv = ([] : List ScrapeEvent).filter isSleepEv :=
  ⟨⟨(c9_delays_amended.1 0 (by decide)).1, (c9_delays_amended.1 0 (by decide)).2.1,
    (c9_delays_amended.1 299 (by decide)).2.2.1, (c9_delays_amended.1 299 (by decide)).2.2.2⟩,
   c9_delays_amended.2 5 [] { }⟩

/-- C10 amended.  The download proxy returns 400 exactly when the `url`
query parameter is absent **or present but empty** (the `!imageUrl`
falsiness check); for a present nonempty parameter it issues exactly one
fetch of the caller-supplied URL as given — with no restriction to the
image CDN host — and answers 500 with no bytes forwarded whenever that
fetch rejects or returns a non-success status. -/
theorem c10_download_amended (p : Option String) (f : String → UpstreamResult) :
    ((downloadGET p f).status = 400 ↔ p = none ∨ p = some "") ∧
    (∀ u, p = some u → u ≠ "" →
      (downloadGET p f).requested = [u] ∧
      (f u = UpstreamResult.throws →
        (downloadGET p f).status = 500 ∧ (downloadGET p f).body = none) ∧
      (∀ ct body, f u = UpstreamResult.resp false ct body →
        (downloadGET p f).status = 500 ∧ (downloadGET p f).body = none)) := by
  cases p with
  | none => simp [downloadGET]
  | some u =>
    by_cases hu : u = ""
    · subst hu
      constructor
      · simp [downloadGET]
      · intro u' hu' hne
        rw [Option.some.injEq] at hu'
        exact absurd hu'.symm hne
    · constructor
      · unfold downloadGET
        dsimp only
        rw [if_neg hu]
        cases hf : f u with
        | throws =>
          simp only [Option.some.injEq]
          constructor
          · intro h; cases h
          · rintro (h | h)
            · cases h
            · exact absurd h.symm (fun he => hu he.symm)
        | resp ok ct body =>
          cases ok with
          | true =>
            simp only [if_true, Option.some.injEq]
            constructor
            · intro h; cases h
            · rintro (h | h)
              · cases h
              · exact absurd h.symm (fun he => hu he.symm)
          | false =>
            simp only [Bool.false_eq_true, if_false, Option.some.injEq]
            constructor
            · intro h; cases h
            · rintro (h | h)
              · cases h
              · exact absurd h.symm (fun he => hu he.symm)
      · intro u' hu' _
        rw [Option.some.injEq] at hu'
        subst hu'
        unfold downloadGET
        dsimp only
        rw [if_neg hu]
        refine ⟨?_, ?_, ?_⟩
        · cases hf : f u with
          | throws => rfl
          | resp ok ct body => cases ok <;> rfl
        · intro hf
          rw [hf]
          exact ⟨rfl, rfl⟩
        · intro ct body hf
          rw [hf]
          exact ⟨rfl, rfl⟩

/-- Closed witness for the C10 amended theorem: a present nonempty URL
with a rejecting upstream is fetched as given and answered with a 500
and no bytes. -/
theorem c10_download_amended_witness :
    (downloadGET (some "https://example.com/a.jpg") (fun _ => UpstreamResult.throws)).requested =
        ["https://example.com/a.jpg"] ∧
    (downloadGET (some "https://example.com/a.jpg") (fun _ => UpstreamResult.throws)).status = 500 ∧
    (downloadGET (some "https://example.com/a.jpg") (fun _ => UpstreamResult.throws)).body = none :=
  have h := (c10_download_amended (some "https://example.com/a.jpg")
    (fun _ => UpstreamResult.throws)).2 "https://example.com/a.jpg" rfl (by decide)
  ⟨h.1, (h.2.1 rfl).1, (h.2.1 rfl).2⟩
